import Mathlib

/-!
Verification development for the chess_bot engine (src/src/main.rs,
src/src/engine.rs, src/src/eval.rs).

The rules of chess themselves are supplied to the engine by the external
shakmaty crate (the Rules Provider of the spec).  The embedding therefore
abstracts the rules behind a `Game` structure whose fields are exactly the
shakmaty capabilities the engine consumes; the code of the engine itself (search,
evaluation, transposition table, move ordering, UCI-side time policy) is
translated function by function.

Machine integers: all engine scores are Rust i64 values.  The magnitudes
reachable here (bounded by POSITIVE_INFINITY = 9_999_999_999_999) are far
below 2^63, and the source performs no wrapping arithmetic on them, so
scores are embedded as Lean Int.  Rust u64 depths and times are embedded
as Nat (the source only ever subtracts guarded positive amounts).
-/

namespace ChessBot

/-- A chess side, mirroring shakmaty Color. -/
inductive PColor
  | white
  | black
deriving DecidableEq, Repr

/-- shakmaty Color.other. -/
def PColor.other : PColor → PColor
  | .white => .black
  | .black => .white

/-- A piece role, mirroring shakmaty Role. -/
inductive Role
  | pawn
  | knight
  | bishop
  | rook
  | queen
  | king
deriving DecidableEq, Repr

/-- A move as the engine observes it through shakmaty Move: the moving
role, the captured role if any, the promotion role if any, and the
destination square dest (0..63, to() in the source).  The engine compares moves structurally; the
id field stands for the remaining shakmaty fields (origin square, castling
data, ...) that distinguish otherwise-identical moves. -/
structure GMove where
  id : Nat
  role : Role
  capture : Option Role
  promotion : Option Role
  dest : Nat
deriving DecidableEq, Repr

/-- An occupied-square entry of a board, mirroring shakmaty Piece. -/
structure Piece where
  color : PColor
  role : Role
deriving DecidableEq, Repr

/-- The outcome of a finished game, mirroring shakmaty Outcome. -/
inductive GOutcome
  | decisive (winner : PColor)
  | draw
deriving DecidableEq, Repr

/-- The Rules Provider consumed by the engine: the exact shakmaty
capability set used by src/src/engine.rs, abstracted over the position
type.  `attacked p sq` models
`position.board().attacks_to(sq, position.turn().other(), occupied).any()`
(line 303 of engine.rs), `swapTurn` models `Chess::swap_turn` returning
`Option` for its `Result`, `zobrist` the 64-bit Zobrist hash, and
`kingSq` models `board.king_of(color).unwrap()` (engine.rs line 380;
every legal chess position has both kings, so the embedding makes the
lookup total).  `material` is a measure of capturable material used only
to size the quiescence recursion (quiescence in the source terminates
because every capture strictly reduces material on the board). -/
structure Game where
  Pos : Type
  legalMoves : Pos → List GMove
  play : Pos → GMove → Pos
  gameOver : Pos → Bool
  outcome : Pos → Option GOutcome
  turn : Pos → PColor
  inCheck : Pos → Bool
  swapTurn : Pos → Option Pos
  zobrist : Pos → Nat
  board : Pos → List (Nat × Piece)
  kingSq : Pos → PColor → Nat
  attacked : Pos → Nat → Bool
  material : Pos → Nat

/-- src/src/eval.rs line 24 (the same constant is re-exported to the
engine through the engine_hyperparams module). -/
def MATE_SCORE : Int := 100000000

/-- src/src/eval.rs line 26. -/
def POSITIVE_INFINITY : Int := 9999999999999

/-- src/src/eval.rs line 27. -/
def NEGATIVE_INFINITY : Int := -POSITIVE_INFINITY

/-- Modelled from the spec: engine.rs line 419 get_piece_base_score reads
PAWN_VALUE .. KING_VALUE from the engine_hyperparams module, whose file is
not under src/.  Section 4.3 of the spec fixes the table: pawn=100,
knight=320, bishop=330, rook=500, queen=900, king=20000. -/
def get_piece_base_score : Role → Int
  | .pawn => 100
  | .knight => 320
  | .bishop => 330
  | .rook => 500
  | .queen => 900
  | .king => 20000

/-- The piece-square tables of the missing engine_hyperparams module
(PAWN_PST .. KING_EG_PST, engine.rs lines 350..360).  Their concrete
values are unknown, so the development is parametric in them: each table
maps a square index 0..63 to a signed bonus. -/
structure Hyper where
  pawnPst : Nat → Int
  knightPst : Nat → Int
  bishopPst : Nat → Int
  rookPst : Nat → Int
  queenPst : Nat → Int
  kingMgPst : Nat → Int
  kingEgPst : Nat → Int

/-- An all-zero table instantiation, used for concrete runs whose outcome
does not depend on the table values. -/
def H0 : Hyper :=
  ⟨fun _ => 0, fun _ => 0, fun _ => 0, fun _ => 0, fun _ => 0, fun _ => 0, fun _ => 0⟩

/-- engine.rs lines 13-18. -/
inductive TranspositionHashType
  | exact
  | alpha
  | beta
deriving DecidableEq, Repr

/-- engine.rs lines 20-26. -/
structure TranspositionInformation where
  depth : Nat
  value : Int
  bestMove : Option GMove
  ttype : TranspositionHashType
deriving DecidableEq, Repr

/-- The mutable state of the searcher, threaded through the search:
the transposition table (the HashMap is modelled as an association list
where the most recent insert for a key shadows older ones, which is
observationally the HashMap with last-writer-wins), the searched_nodes
counter, and the cooperative stop flag.  The shared AtomicBool flipped by
the timer thread is modelled by thinkFuel: the next thinkFuel loads of the
flag observe true, every later load observes false.  This captures exactly
the timer behaviour (the flag starts true and is cleared once, at some
point of the load sequence). -/
structure SState where
  tt : List (Nat × TranspositionInformation)
  nodes : Nat
  thinkFuel : Nat
deriving DecidableEq, Repr

/-- One load of the is_thinking flag. -/
def loadThinking (st : SState) : Bool × SState :=
  if st.thinkFuel = 0 then (false, st)
  else (true, { st with thinkFuel := st.thinkFuel - 1 })

/-- HashMap::get on the modelled table. -/
def ttLookup (tt : List (Nat × TranspositionInformation)) (zh : Nat) :
    Option TranspositionInformation :=
  match tt with
  | [] => Option.none
  | e :: rest => if e.1 = zh then some e.2 else ttLookup rest zh

/-- engine.rs lines 259-276 record_hash: HashMap::insert, i.e.
last-writer-wins. -/
def recordHash (tt : List (Nat × TranspositionInformation)) (zh : Nat)
    (depth : Nat) (value : Int) (ttype : TranspositionHashType)
    (bestMove : Option GMove) : List (Nat × TranspositionInformation) :=
  (zh, ⟨depth, value, bestMove, ttype⟩) :: tt

/-- engine.rs lines 222-227. -/
inductive HashProbeOption
  | value (v : Int)
  | move (m : GMove)
  | none
deriving DecidableEq, Repr

/-- engine.rs lines 229-257 probe_hash, with the early returns of the source
written as nested conditionals. -/
def probe_hash (tt : List (Nat × TranspositionInformation)) (zh : Nat)
    (depth : Nat) (alpha beta : Int) : HashProbeOption :=
  match ttLookup tt zh with
  | Option.none => HashProbeOption.none
  | some info =>
    if depth ≤ info.depth ∧ info.ttype = TranspositionHashType.exact then
      HashProbeOption.value info.value
    else if depth ≤ info.depth ∧ info.ttype = TranspositionHashType.alpha ∧
        info.value ≤ alpha then
      HashProbeOption.value alpha
    else if depth ≤ info.depth ∧ info.ttype = TranspositionHashType.beta ∧
        beta ≤ info.value then
      HashProbeOption.value beta
    else
      match info.bestMove with
      | some m => HashProbeOption.move m
      | Option.none => HashProbeOption.none

/-- The probe as the spec describes it (section 4.2), written clause by
clause in the order and vocabulary of the spec (Exact / UpperBound=alpha /
LowerBound=beta); used to compare against probe_hash from the source. -/
def probeSpec (tt : List (Nat × TranspositionInformation)) (zh : Nat)
    (depth : Nat) (alpha beta : Int) : HashProbeOption :=
  match ttLookup tt zh with
  | Option.none => HashProbeOption.none
  | some entry =>
    if entry.depth ≥ depth then
      if entry.ttype = TranspositionHashType.exact then
        HashProbeOption.value entry.value
      else if entry.ttype = TranspositionHashType.alpha ∧ entry.value ≤ alpha then
        HashProbeOption.value alpha
      else if entry.ttype = TranspositionHashType.beta ∧ entry.value ≥ beta then
        HashProbeOption.value beta
      else
        match entry.bestMove with
        | some m => HashProbeOption.move m
        | Option.none => HashProbeOption.none
    else
      match entry.bestMove with
      | some m => HashProbeOption.move m
      | Option.none => HashProbeOption.none

/-- The Rust slice sort_by_key: a stable sort, ascending in the key.
List.mergeSort with a total preorder is stable and sorted, matching the
Rust contract. -/
def sortByScore {α : Type} (key : α → Int) (l : List α) : List α :=
  l.mergeSort (fun a b => decide (key a ≤ key b))

/-- engine.rs lines 278-317 quick_score_move_for_sort.  Higher desirability
gives a more negative result (the source negates the score so that the ascending Rust sort puts the best move first). -/
def quick_score_move_for_sort (G : Game) (moveToScore : GMove) (p : G.Pos)
    (lastBestMove : Option GMove) : Int :=
  let s1 : Int :=
    match lastBestMove with
    | some lastMove => if moveToScore = lastMove then 10000 else 0
    | Option.none => 0
  let s2 : Int :=
    match moveToScore.capture with
    | some capturedPiece => 10 * get_piece_base_score capturedPiece
    | Option.none => 0
  let s3 : Int :=
    match moveToScore.promotion with
    | some newPiece => get_piece_base_score newPiece
    | Option.none => 0
  let s4 : Int :=
    (if G.attacked p moveToScore.dest then get_piece_base_score moveToScore.role
     else 0);
  -(s1 + s2 + s3 - s4)

/-- shakmaty Square::flip_vertical: square XOR 56. -/
def flipVertical (sq : Nat) : Nat := sq ^^^ 56

/-- Square file, 0..7. -/
def fileOf (sq : Nat) : Int := (sq % 8 : Nat)

/-- Square rank, 0..7. -/
def rankOf (sq : Nat) : Int := (sq / 8 : Nat)

/-- Rust i64::abs. -/
def intAbs (x : Int) : Int := if x < 0 then -x else x

/-- engine.rs lines 378-398 end_game_king_bonuses. -/
def end_game_king_bonuses (G : Game) (p : G.Pos) : Int :=
  let playerKing := G.kingSq p (G.turn p)
  let opponentKing := G.kingSq p (G.turn p).other
  let kingsDistance :=
    intAbs (fileOf playerKing - fileOf opponentKing) +
      intAbs (rankOf playerKing - rankOf opponentKing)
  let opponentKingCenterDistance :=
    max (3 - fileOf opponentKing) (fileOf opponentKing - 4) +
      max (3 - rankOf opponentKing) (rankOf opponentKing - 4)
  ((14 - kingsDistance) + opponentKingCenterDistance) * 10

/-- The per-piece contribution of engine.rs lines 342-362: base value plus
the piece-square-table entry, where a White piece indexes the table at the
vertically flipped square and the king table switches from middle-game to
end-game when at most 10 pieces remain. -/
def pieceTmpScore (H : Hyper) (pieceCount : Nat) (sq : Nat) (pc : Piece) : Int :=
  let piecePos := if pc.color = PColor.white then flipVertical sq else sq
  get_piece_base_score pc.role +
    match pc.role with
    | .pawn => H.pawnPst piecePos
    | .knight => H.knightPst piecePos
    | .bishop => H.bishopPst piecePos
    | .rook => H.rookPst piecePos
    | .queen => H.queenPst piecePos
    | .king => if 10 < pieceCount then H.kingMgPst piecePos else H.kingEgPst piecePos

/-- engine.rs lines 321-376 evaluate: the static evaluation actually used
by the search (quiesce calls it at line 177).  Terminal positions map to
the mate/draw constants; otherwise each piece contributes its base value
plus table bonus, signed by whether it belongs to the side to move, and
positions with at most 10 pieces additionally receive the endgame king
bonus. -/
def evaluate (G : Game) (H : Hyper) (p : G.Pos) : Int :=
  if G.gameOver p then
    match G.outcome p with
    | some (GOutcome.decisive winner) =>
      if winner = G.turn p then MATE_SCORE else -MATE_SCORE
    | _ => 0
  else
    let b := G.board p
    let pieceCount := b.length
    let totalScore :=
      (b.map fun e =>
        pieceTmpScore H pieceCount e.1 e.2 *
          (if e.2.color = G.turn p then 1 else -1)).sum
    if pieceCount ≤ 10 then totalScore + end_game_king_bonuses G p else totalScore

/-- The capture list of engine.rs lines 188-199: legal moves that are
captures, stably sorted ascending by
base(attacker) - base(victim) (the source key
`-get_piece_base_score(capture) + get_piece_base_score(role)`; the
`none` branch of the key is unreachable on the filtered list). -/
def sortedCaptures (G : Game) (p : G.Pos) : List GMove :=
  sortByScore
    (fun m =>
      -(match m.capture with
        | some c => get_piece_base_score c
        | Option.none => 0) + get_piece_base_score m.role)
    ((G.legalMoves p).filter fun m => m.capture.isSome)

mutual

/-- engine.rs lines 174-219 quiesce.  The source recursion terminates
because each capture strictly reduces the material on the board; the
embedding makes that measure explicit as a fuel argument, always invoked
with fuel exceeding the board material (see quiesce below), so the
fuel-exhausted branch - which returns the stand-pat value exactly like a
position without captures - is never taken on a faithful rules provider. -/
def quiesceF (G : Game) (H : Hyper) (fuel : Nat) (p : G.Pos)
    (alpha beta : Int) (st : SState) : Int × SState :=
  let st1 := { st with nodes := st.nodes + 1 }
  let staticEval := evaluate G H p
  if beta ≤ staticEval then (staticEval, st1)
  else
    let alpha1 := if alpha < staticEval then staticEval else alpha
    match fuel with
    | 0 => (staticEval, st1)
    | f + 1 => qloopF G H f p (sortedCaptures G p) alpha1 beta staticEval st1
termination_by (fuel, 0, 0)
decreasing_by
  all_goals simp_wf
  · apply Prod.Lex.left; omega

/-- The capture loop of quiesce (engine.rs lines 201-216), threading
alpha and best_value and returning early on a beta cutoff. -/
def qloopF (G : Game) (H : Hyper) (f : Nat) (p : G.Pos) (ms : List GMove)
    (alpha beta bestValue : Int) (st : SState) : Int × SState :=
  match ms with
  | [] => (bestValue, st)
  | m :: rest =>
    let newPos := G.play p m
    let rc := quiesceF G H f newPos (-beta) (-alpha) st
    let score := -rc.1
    if beta ≤ score then (score, rc.2)
    else
      let bestValue1 := if bestValue < score then score else bestValue
      let alpha1 := if alpha < score then score else alpha
      qloopF G H f p rest alpha1 beta bestValue1 rc.2
termination_by (f, 1, ms.length)
decreasing_by
  all_goals simp_wf
  · apply Prod.Lex.right; apply Prod.Lex.left; omega
  · apply Prod.Lex.right; apply Prod.Lex.right; omega

end

/-- quiesce as the search invokes it: the fuel is one more than the
board material, so on a faithful rules provider (where captures strictly
reduce material) the recursion never exhausts it. -/
def quiesce (G : Game) (H : Hyper) (p : G.Pos) (alpha beta : Int)
    (st : SState) : Int × SState :=
  quiesceF G H (G.material p + 1) p alpha beta st

/-- The horizon branch of negamax (engine.rs lines 104-118): evaluate by
quiescence, record the value as Exact with no best move, return it. -/
def negamaxHorizon (G : Game) (H : Hyper) (depth : Nat) (p : G.Pos) (zh : Nat)
    (alpha beta : Int) (st : SState) : Int × SState :=
  let r := quiesce G H p alpha beta st
  (r.1,
    { r.2 with
      tt := recordHash r.2.tt zh depth r.1 TranspositionHashType.exact Option.none })

mutual

/-- engine.rs lines 87-172 negamax.  Step order follows the source: probe
the table (an Exact-or-bound hit returns at once, a hint move seeds the
ordering), count the node, fall to quiescence at depth zero / game over /
stop-flag cleared (the flag is only loaded when the first two tests fail,
matching the Rust short-circuit), try null-move pruning at depth at least 3
when not in check and the rules provider allows passing the turn, then
search the ordered moves. -/
def negamax (G : Game) (H : Hyper) (depth : Nat) (p : G.Pos)
    (alpha beta : Int) (st : SState) : Int × SState :=
  let zh := G.zobrist p
  match probe_hash st.tt zh depth alpha beta with
  | HashProbeOption.value v => (v, st)
  | r =>
    let bestCachedMove : Option GMove :=
      match r with
      | HashProbeOption.move m => some m
      | _ => Option.none
    let st1 := { st with nodes := st.nodes + 1 }
    if hterm : depth = 0 ∨ G.gameOver p = true then
      negamaxHorizon G H depth p zh alpha beta st1
    else
      let tk := loadThinking st1
      if tk.1 = false then
        negamaxHorizon G H depth p zh alpha beta tk.2
      else
        if h3 : 3 ≤ depth ∧ G.inCheck p = false then
          match G.swapTurn p with
          | some nullPos =>
            let rn := negamax G H (depth - 3) nullPos (-beta) (-beta + 1) tk.2
            if beta ≤ -rn.1 then (beta, rn.2)
            else negamaxMoves G H (depth - 1) depth p zh bestCachedMove alpha beta rn.2
          | Option.none =>
            negamaxMoves G H (depth - 1) depth p zh bestCachedMove alpha beta tk.2
        else
          negamaxMoves G H (depth - 1) depth p zh bestCachedMove alpha beta tk.2
termination_by (depth, 3, 0)
decreasing_by
  all_goals simp_wf
  · apply Prod.Lex.left; omega
  all_goals
    have he : depth - 1 + 1 = depth := by
      rcases hterm with hterm
      omega
    rw [he]
  all_goals apply Prod.Lex.right; apply Prod.Lex.left; omega

/-- The move phase of negamax (engine.rs lines 133-137): generate the
legal moves, stably sort them by quick_score_move_for_sort seeded with the
cached hint, run the move loop.  dchild is the depth of the child
searches (depth - 1 in the source) and drec the depth recorded for this
node. -/
def negamaxMoves (G : Game) (H : Hyper) (dchild drec : Nat) (p : G.Pos)
    (zh : Nat) (bestCachedMove : Option GMove) (alpha beta : Int)
    (st : SState) : Int × SState :=
  let ms := sortByScore
    (fun m => quick_score_move_for_sort G m p bestCachedMove) (G.legalMoves p)
  let r := negamaxLoop G H dchild drec p zh ms 0 alpha beta Option.none
    TranspositionHashType.alpha st
  (r.1, r.2.1)
termination_by (dchild + 1, 2, 0)
decreasing_by
  all_goals simp_wf
  · apply Prod.Lex.right; apply Prod.Lex.left; omega

/-- The move loop of negamax (engine.rs lines 139-170): each move is
played and searched at dchild (depth - 1 in the source) with the flipped
window; a score reaching beta records a Beta entry and fail-hard returns
beta, a score improving alpha becomes the new best with the pending record
flipped to Exact, and after the loop the node records (drec, alpha,
pending type, best move) and returns alpha.  The third component of the
result additionally lists, per examined move, the pair
(loop index, depth argument of its recursive search); the value and state
components are exactly those of the source. -/
def negamaxLoop (G : Game) (H : Hyper) (dchild drec : Nat) (p : G.Pos)
    (zh : Nat) (ms : List GMove) (i : Nat) (alpha beta : Int)
    (bestMove : Option GMove) (tty : TranspositionHashType) (st : SState) :
    Int × SState × List (Nat × Nat) :=
  match ms with
  | [] =>
    (alpha, { st with tt := recordHash st.tt zh drec alpha tty bestMove }, [])
  | m :: rest =>
    let newPos := G.play p m
    let rc := negamax G H dchild newPos (-beta) (-alpha) st
    let score := -rc.1
    if beta ≤ score then
      (beta,
        { rc.2 with
          tt := recordHash rc.2.tt zh drec beta TranspositionHashType.beta (some m) },
        [(i, dchild)])
    else if alpha < score then
      let rr := negamaxLoop G H dchild drec p zh rest (i + 1) score beta (some m)
        TranspositionHashType.exact rc.2
      (rr.1, rr.2.1, (i, dchild) :: rr.2.2)
    else
      let rr := negamaxLoop G H dchild drec p zh rest (i + 1) alpha beta bestMove
        tty rc.2
      (rr.1, rr.2.1, (i, dchild) :: rr.2.2)
termination_by (dchild + 1, 1, ms.length)
decreasing_by
  all_goals simp_wf
  · apply Prod.Lex.left; omega
  · apply Prod.Lex.right; apply Prod.Lex.right; omega
  · apply Prod.Lex.right; apply Prod.Lex.right; omega

end

/-- The result of one root search (engine.rs next_move): the best move
found (none models the `expect("No legal moves found")` panic on a
position without legal moves), the final root alpha, the final state, and
the list of root moves examined before the loop ended (the value and state
components are exactly those of the source; the examined list only records which
iterations ran). -/
structure RootResult where
  best : Option GMove
  alpha : Int
  st : SState
  examined : List GMove
deriving Repr

/-- The root move loop of next_move (engine.rs lines 67-78): search each
move at target_depth - 1 under the full window, track the alpha-improving
best move, and break as soon as a load of the stop flag reads false. -/
def rootLoop (G : Game) (H : Hyper) (targetDepth : Nat) (p : G.Pos)
    (ms : List GMove) (beta alpha : Int) (best : Option GMove) (st : SState)
    (examined : List GMove) : RootResult :=
  match ms with
  | [] => ⟨best, alpha, st, examined⟩
  | m :: rest =>
    let newPosition := G.play p m
    let rc := negamax G H (targetDepth - 1) newPosition (-beta) (-alpha) st
    let score := -rc.1
    let alpha1 := if alpha < score then score else alpha
    let best1 := if alpha < score then some m else best
    let tk := loadThinking rc.2
    if tk.1 = false then ⟨best1, alpha1, tk.2, examined ++ [m]⟩
    else rootLoop G H targetDepth p rest beta alpha1 best1 tk.2 (examined ++ [m])

/-- engine.rs lines 56-85 next_move: sort the legal moves by
quick_score_move_for_sort seeded with the best move of the previous iteration,
then run the root loop with the full (−INF, +INF) window. -/
def next_move (G : Game) (H : Hyper) (targetDepth : Nat)
    (lastBestMove : Option GMove) (p : G.Pos) (st : SState) : RootResult :=
  let ms := sortByScore
    (fun m => quick_score_move_for_sort G m p lastBestMove) (G.legalMoves p)
  rootLoop G H targetDepth p ms POSITIVE_INFINITY NEGATIVE_INFINITY
    Option.none st []

/-- The iterative-deepening loop of handle_go (main.rs lines 213-227):
while a load of the stop flag reads true, run the root search of the next depth
and unconditionally replace the best move with its result.  Each iteration
that recurses has consumed at least one unit of think fuel, so gas set to
one more than the initial fuel (see driver) can never run out before the
flag reads false; the gas-exhausted branch returns the current best move
and is unreachable from driver. -/
def driverLoop (G : Game) (H : Hyper) (p : G.Pos) (gas : Nat) (st : SState)
    (depth : Nat) (best : GMove) : Option GMove × SState :=
  match gas with
  | 0 => (some best, st)
  | g + 1 =>
    let tk := loadThinking st
    if tk.1 = false then (some best, tk.2)
    else
      let r := next_move G H depth (some best) p tk.2
      match r.best with
      | some m => driverLoop G H p g r.st (depth + 1) m
      | Option.none => (Option.none, r.st)

/-- The search thread body of handle_go (main.rs lines 202-238): a first
unconditional root search at depth 1 whose result seeds best_move, then
the deepening loop; none models the panic of next_move on a position
without legal moves. -/
def driver (G : Game) (H : Hyper) (p : G.Pos) (st : SState) :
    Option GMove × SState :=
  let r := next_move G H 1 Option.none p st
  match r.best with
  | some m => driverLoop G H p (r.st.thinkFuel + 1) r.st 2 m
  | Option.none => (Option.none, r.st)

/-- main.rs lines 191-195: the clock of the side to move. -/
def selectClock (turn : PColor) (wtime btime : Option Nat) : Option Nat :=
  if turn = PColor.white then wtime else btime

/-- main.rs lines 197-200: the think time (milliseconds) armed on the
timer thread. -/
def targetThinkTime (time : Option Nat) : Nat :=
  match time with
  | some availableTime => availableTime / 20
  | Option.none => 100

/-!
Concrete rules providers used to run the engine on small games.  Each is a
fully computable instance of the abstract Rules Provider; positions are
natural numbers, position 0 the root.
-/

/-- A game in which every position is already finished: position 0 is a
decisive win for White with White to move, position 1 the same win seen
from the Black side, every other position a draw. -/
def Gterm : Game where
  Pos := Nat
  legalMoves := fun _ => []
  play := fun p _ => p
  gameOver := fun _ => true
  outcome := fun p =>
    match p with
    | 0 => some (GOutcome.decisive PColor.white)
    | 1 => some (GOutcome.decisive PColor.white)
    | _ => some GOutcome.draw
  turn := fun p => if p = 0 then PColor.white else PColor.black
  inCheck := fun _ => false
  swapTurn := fun _ => Option.none
  zobrist := fun p => p
  board := fun _ => []
  kingSq := fun _ _ => 0
  attacked := fun _ _ => false
  material := fun _ => 0

/-- A mirrored four-piece rook endgame (FEN r3k3/8/8/8/8/8/8/R3K3):
position 0 with White to move and position 1 the identical board with
Black to move.  The board is chosen mirror-symmetric so that the
piece-square contributions cancel for every table instantiation, leaving
only the endgame king bonus. -/
def Gsym : Game where
  Pos := Nat
  legalMoves := fun _ => [⟨0, Role.rook, Option.none, Option.none, 8⟩]
  play := fun p _ => p
  gameOver := fun _ => false
  outcome := fun _ => Option.none
  turn := fun p => if p = 0 then PColor.white else PColor.black
  inCheck := fun _ => false
  swapTurn := fun p => if p = 0 then some 1 else some 0
  zobrist := fun p => p
  board := fun _ =>
    [(4, ⟨PColor.white, Role.king⟩), (60, ⟨PColor.black, Role.king⟩),
     (0, ⟨PColor.white, Role.rook⟩), (56, ⟨PColor.black, Role.rook⟩)]
  kingSq := fun _ c => if c = PColor.white then 4 else 60
  attacked := fun _ _ => false
  material := fun _ => 0

/-- A twelve-piece position (kings and five pawns each) and its
turn-flip, used to exercise the antisymmetric regime of the evaluation
(more than 10 pieces, so no endgame king bonus). -/
def Gsym2 : Game where
  Pos := Nat
  legalMoves := fun _ => [⟨0, Role.pawn, Option.none, Option.none, 16⟩]
  play := fun p _ => p
  gameOver := fun _ => false
  outcome := fun _ => Option.none
  turn := fun p => if p = 0 then PColor.white else PColor.black
  inCheck := fun _ => false
  swapTurn := fun p => if p = 0 then some 1 else some 0
  zobrist := fun p => p
  board := fun _ =>
    [(4, ⟨PColor.white, Role.king⟩), (60, ⟨PColor.black, Role.king⟩),
     (8, ⟨PColor.white, Role.pawn⟩), (9, ⟨PColor.white, Role.pawn⟩),
     (10, ⟨PColor.white, Role.pawn⟩), (11, ⟨PColor.white, Role.pawn⟩),
     (12, ⟨PColor.white, Role.pawn⟩),
     (48, ⟨PColor.black, Role.pawn⟩), (49, ⟨PColor.black, Role.pawn⟩),
     (50, ⟨PColor.black, Role.pawn⟩), (51, ⟨PColor.black, Role.pawn⟩),
     (52, ⟨PColor.black, Role.pawn⟩)]
  kingSq := fun _ c => if c = PColor.white then 4 else 60
  attacked := fun _ _ => false
  material := fun _ => 0

/-- A position whose two legal moves are both captures: a pawn taking a
knight (move id 1) and a queen taking a rook (move id 2). -/
def Gcap : Game where
  Pos := Nat
  legalMoves := fun p =>
    if p = 0 then
      [⟨1, Role.pawn, some Role.knight, Option.none, 9⟩,
       ⟨2, Role.queen, some Role.rook, Option.none, 18⟩]
    else []
  play := fun _ m => m.id
  gameOver := fun p => p ≠ 0
  outcome := fun p => if p = 0 then Option.none else some GOutcome.draw
  turn := fun _ => PColor.white
  inCheck := fun _ => false
  swapTurn := fun _ => Option.none
  zobrist := fun p => p
  board := fun _ => []
  kingSq := fun _ _ => 0
  attacked := fun _ _ => false
  material := fun p => if p = 0 then 1 else 0

/-- A root position (0) that is not in check and may pass the turn to
reach position 1, a drawn position; used to fire null-move pruning. -/
def Gnull : Game where
  Pos := Nat
  legalMoves := fun p =>
    if p = 0 then [⟨1, Role.pawn, Option.none, Option.none, 16⟩] else []
  play := fun _ m => m.id
  gameOver := fun p => p ≠ 0
  outcome := fun p => if p = 0 then Option.none else some GOutcome.draw
  turn := fun p => if p = 0 then PColor.white else PColor.black
  inCheck := fun _ => false
  swapTurn := fun p => if p = 0 then some 1 else Option.none
  zobrist := fun p => p
  board := fun _ => []
  kingSq := fun _ _ => 0
  attacked := fun _ _ => false
  material := fun _ => 0

/-- A root position with five quiet (non-capture) legal moves, each
leading to a drawn terminal position (1..5); position 6 is the pass-turn
position.  The fifth move has loop index 4, enough to qualify for the
late-move-reduction condition of the spec. -/
def Gfive : Game where
  Pos := Nat
  legalMoves := fun p =>
    if p = 0 then
      [⟨1, Role.pawn, Option.none, Option.none, 17⟩,
       ⟨2, Role.pawn, Option.none, Option.none, 18⟩,
       ⟨3, Role.pawn, Option.none, Option.none, 19⟩,
       ⟨4, Role.pawn, Option.none, Option.none, 20⟩,
       ⟨5, Role.pawn, Option.none, Option.none, 21⟩]
    else []
  play := fun p m => if p = 0 then m.id else p
  gameOver := fun p => p ≠ 0
  outcome := fun p => if p = 0 then Option.none else some GOutcome.draw
  turn := fun p => if p = 0 then PColor.white else PColor.black
  inCheck := fun _ => false
  swapTurn := fun p => if p = 0 then some 6 else Option.none
  zobrist := fun p => p
  board := fun _ => []
  kingSq := fun _ _ => 0
  attacked := fun _ _ => false
  material := fun _ => 0

/-- The iterative-deepening scenario: from the root (0), move a (id 1)
reaches position 1, move b (id 2) position 2, move c (id 3) position 3;
position 1 answers with a move to position 4 and position 2 with a move
to position 5.  The boards make move a win a pawn at depth 1 but get
equalised by the reply (positions 1 and 4), while move b looks level at
depth 1 and wins a pawn after the forced reply (positions 2 and 5).  So
depth 1 prefers a and depth 2 prefers b. -/
def Gdrv : Game where
  Pos := Nat
  legalMoves := fun p =>
    if p = 0 then
      [⟨1, Role.pawn, Option.none, Option.none, 17⟩,
       ⟨2, Role.pawn, Option.none, Option.none, 18⟩,
       ⟨3, Role.pawn, Option.none, Option.none, 19⟩]
    else if p = 1 then [⟨4, Role.pawn, Option.none, Option.none, 25⟩]
    else if p = 2 then [⟨5, Role.pawn, Option.none, Option.none, 26⟩]
    else []
  play := fun p m => if p = 0 then m.id else if p = 1 then 4 else if p = 2 then 5 else p
  gameOver := fun _ => false
  outcome := fun _ => Option.none
  turn := fun p => if p = 0 then PColor.white else if p ≤ 3 then PColor.black else PColor.white
  inCheck := fun _ => false
  swapTurn := fun _ => Option.none
  zobrist := fun p => p
  board := fun p =>
    if p = 1 ∨ p = 5 then
      [(8, ⟨PColor.white, Role.pawn⟩), (9, ⟨PColor.white, Role.pawn⟩),
       (10, ⟨PColor.white, Role.pawn⟩), (11, ⟨PColor.white, Role.pawn⟩),
       (12, ⟨PColor.white, Role.pawn⟩), (13, ⟨PColor.white, Role.pawn⟩),
       (48, ⟨PColor.black, Role.pawn⟩), (49, ⟨PColor.black, Role.pawn⟩),
       (50, ⟨PColor.black, Role.pawn⟩), (51, ⟨PColor.black, Role.pawn⟩),
       (52, ⟨PColor.black, Role.pawn⟩)]
    else
      [(8, ⟨PColor.white, Role.pawn⟩), (9, ⟨PColor.white, Role.pawn⟩),
       (10, ⟨PColor.white, Role.pawn⟩), (11, ⟨PColor.white, Role.pawn⟩),
       (12, ⟨PColor.white, Role.pawn⟩), (13, ⟨PColor.white, Role.pawn⟩),
       (48, ⟨PColor.black, Role.pawn⟩), (49, ⟨PColor.black, Role.pawn⟩),
       (50, ⟨PColor.black, Role.pawn⟩), (51, ⟨PColor.black, Role.pawn⟩),
       (52, ⟨PColor.black, Role.pawn⟩), (53, ⟨PColor.black, Role.pawn⟩)]
  kingSq := fun _ _ => 0
  attacked := fun _ _ => false
  material := fun _ => 0

/-- A one-move game: the root (0) has a single legal move to the drawn
terminal position 1; every position other than 0 is terminal. -/
def Gw9 : Game where
  Pos := Nat
  legalMoves := fun q =>
    if q = 0 then [⟨1, Role.pawn, Option.none, Option.none, 8⟩] else []
  play := fun _ m => m.id
  gameOver := fun q => q ≠ 0
  outcome := fun q => if q = 0 then Option.none else some GOutcome.draw
  turn := fun _ => PColor.white
  inCheck := fun _ => false
  swapTurn := fun _ => Option.none
  zobrist := fun q => q
  board := fun _ => []
  kingSq := fun _ _ => 0
  attacked := fun _ _ => false
  material := fun _ => 0

/-- Every value stored in the transposition table lies strictly between
the window sentinels; an invariant of all tables the search produces. -/
def ttInv (tt : List (Nat × TranspositionInformation)) : Prop :=
  ∀ zh info, ttLookup tt zh = some info →
    NEGATIVE_INFINITY < info.value ∧ info.value < POSITIVE_INFINITY

/-! Helper lemmas. -/

theorem pcolor_other_cases (c t : PColor) (h : c ≠ t) : c = t.other := by
  cases c <;> cases t <;> simp_all [PColor.other]

theorem pcolor_ne_other (t : PColor) : t ≠ t.other := by
  cases t <;> simp [PColor.other]

theorem list_sum_map_negated (l : List (Nat × Piece)) (f : Nat × Piece → Int) :
    (l.map fun x => -(f x)).sum = -(l.map f).sum := by
  induction l with
  | nil => simp
  | cons a t ih => simp [ih]; ring

theorem sortByScore_sorted {α : Type} (key : α → Int) (l : List α) :
    (sortByScore key l).Pairwise (fun a b => key a ≤ key b) := by
  have h := @List.sorted_mergeSort _ (fun a b => decide (key a ≤ key b))
    (fun a b c hab hbc => by
      simp only [decide_eq_true_eq] at hab hbc ⊢; omega)
    (fun a b => by
      simp only [Bool.or_eq_true, decide_eq_true_eq]; omega) l
  exact h.imp (fun hab => by simpa using hab)

theorem sortByScore_perm {α : Type} (key : α → Int) (l : List α) :
    (sortByScore key l).Perm l :=
  List.mergeSort_perm l _

theorem sortByScore_ne_nil {α : Type} (key : α → Int) (l : List α) (h : l ≠ []) :
    sortByScore key l ≠ [] := by
  intro hc
  have hp := sortByScore_perm key l
  rw [hc] at hp
  exact h (List.Perm.nil_eq hp).symm

theorem sortByScore_mem {α : Type} (key : α → Int) (l : List α) (a : α) :
    a ∈ sortByScore key l ↔ a ∈ l :=
  List.mem_mergeSort

theorem ttInv_nil : ttInv [] := by
  intro zh info h
  simp [ttLookup] at h

theorem ttInv_record (tt : List (Nat × TranspositionInformation)) (zh : Nat)
    (d : Nat) (v : Int) (ty : TranspositionHashType) (bm : Option GMove)
    (hinv : ttInv tt) (h1 : NEGATIVE_INFINITY < v) (h2 : v < POSITIVE_INFINITY) :
    ttInv (recordHash tt zh d v ty bm) := by
  intro zh2 info h
  simp only [recordHash, ttLookup] at h
  by_cases he : zh = zh2
  · simp [he] at h
    rw [← h]
    exact ⟨h1, h2⟩
  · simp [he] at h
    exact hinv zh2 info h

theorem loadThinking_tt (st : SState) : (loadThinking st).2.tt = st.tt := by
  unfold loadThinking
  split <;> rfl

/-- A probe that reports a cutoff value reports either the stored value,
or the window bound the stored bound-entry proves. -/
theorem probe_value_cases (tt : List (Nat × TranspositionInformation))
    (zh d : Nat) (a b v : Int)
    (h : probe_hash tt zh d a b = HashProbeOption.value v) :
    ∃ info, ttLookup tt zh = some info ∧
      (v = info.value ∨ (v = a ∧ info.value ≤ a) ∨ (v = b ∧ b ≤ info.value)) := by
  cases hl : ttLookup tt zh with
  | none => simp [probe_hash, hl] at h
  | some info =>
    refine ⟨info, rfl, ?_⟩
    simp only [probe_hash, hl] at h
    split at h
    · next hc => left; injection h with h2; omega
    · split at h
      · next hc => right; left; injection h with h2; exact ⟨h2.symm, hc.2.2⟩
      · split at h
        · next hc => right; right; injection h with h2; exact ⟨h2.symm, hc.2.2⟩
        · cases hbm : info.bestMove <;> simp [hbm] at h

/-- The capture loop of quiesce never returns less than the running
best value while that value is below beta. -/
theorem qloopF_ge (G : Game) (H : Hyper) (f : Nat) (p : G.Pos) :
    ∀ (ms : List GMove) (alpha beta best : Int) (st : SState),
      best < beta → best ≤ (qloopF G H f p ms alpha beta best st).1 := by
  intro ms
  induction ms with
  | nil =>
    intro alpha beta best st hb
    simp [qloopF]
  | cons m rest ih =>
    intro alpha beta best st hb
    rw [qloopF]
    simp only
    split
    · next hcut => exact le_of_lt (lt_of_lt_of_le hb hcut)
    · next hcut =>
      have hlt : (if best < -(quiesceF G H f (G.play p m) (-beta) (-alpha) st).1
          then -(quiesceF G H f (G.play p m) (-beta) (-alpha) st).1 else best) < beta := by
        split
        · omega
        · exact hb
      have hle : best ≤ (if best < -(quiesceF G H f (G.play p m) (-beta) (-alpha) st).1
          then -(quiesceF G H f (G.play p m) (-beta) (-alpha) st).1 else best) := by
        split
        · omega
        · exact le_refl best
      exact le_trans hle (ih _ _ _ _ hlt)

/-- Claim C10: for every position and window, the quiescence value is at
least the static evaluation of the position: the stand-pat score is a
lower bound on every return path of quiesce. -/
theorem quiesce_ge_evaluate (G : Game) (H : Hyper) (p : G.Pos)
    (alpha beta : Int) (st : SState) :
    evaluate G H p ≤ (quiesce G H p alpha beta st).1 := by
  unfold quiesce quiesceF
  simp only
  split
  · simp
  · next hsp =>
    exact qloopF_ge G H (G.material p) p (sortedCaptures G p) _ beta
      (evaluate G H p) _ (by omega)

/-- Claim C3 (amended): the think time armed on the timer thread is
available_clock / 20 milliseconds when a clock for the side to move is
supplied - with no lower bound - and 100 milliseconds when none is. -/
theorem targetThinkTime_formula (wt bt : Option Nat) (c : PColor) (t : Nat) :
    targetThinkTime (some t) = t / 20 ∧ targetThinkTime Option.none = 100 ∧
      targetThinkTime (selectClock c wt bt) =
        (match selectClock c wt bt with
         | some available => available / 20
         | Option.none => 100) := by
  refine ⟨rfl, rfl, ?_⟩
  cases selectClock c wt bt <;> rfl

/-- Claim C3, counterexample: with 500 ms on the clock the armed think
time is 25 ms, not max(500 / 20, 100) = 100 ms, and in particular it is
below the claimed 100 ms floor. -/
theorem targetThinkTime_counterexample :
    targetThinkTime (some 500) = 25 ∧
      targetThinkTime (some 500) ≠ max (500 / 20) 100 ∧
      targetThinkTime (some 500) < 100 := by
  refine ⟨rfl, by decide, by decide⟩

/-- Claim C6: probe_hash returns exactly what the specification describes:
Miss without an entry; with a deep-enough entry, the stored value for an
Exact bound, alpha for an UpperBound (Alpha) entry at most alpha, beta for
a LowerBound (Beta) entry at least beta; otherwise the hint move when one
is stored, else Miss.  probeSpec transcribes the specification clauses. -/
theorem probe_hash_eq_probeSpec (tt : List (Nat × TranspositionInformation))
    (zh depth : Nat) (alpha beta : Int) :
    probe_hash tt zh depth alpha beta = probeSpec tt zh depth alpha beta := by
  unfold probe_hash probeSpec
  cases h : ttLookup tt zh with
  | none => rfl
  | some info =>
    by_cases h1 : depth ≤ info.depth
    · by_cases h2 : info.ttype = TranspositionHashType.exact
      · simp [h1, h2]
      · by_cases h3 : info.ttype = TranspositionHashType.alpha ∧ info.value ≤ alpha
        · simp [h1, h2, h3, ge_iff_le]
        · by_cases h4 : info.ttype = TranspositionHashType.beta ∧ beta ≤ info.value
          · simp [h1, h2, h3, h4, ge_iff_le]
          · simp [h1, h2, h3, h4, ge_iff_le]
    · simp [h1]

/-- Claim C8: on a game-over position the evaluation returns MATE_SCORE
when the decisive winner is the side to move, -MATE_SCORE when the side
to move has lost, 0 on a draw (and on a missing outcome), and the
material/piece-square accumulation is never reached: the result does not
depend on the piece-square tables. -/
theorem evaluate_terminal (G : Game) (H : Hyper) (p : G.Pos)
    (h : G.gameOver p = true) :
    (∀ w, G.outcome p = some (GOutcome.decisive w) →
      evaluate G H p = if w = G.turn p then MATE_SCORE else -MATE_SCORE) ∧
    (G.outcome p = some GOutcome.draw → evaluate G H p = 0) ∧
    (G.outcome p = Option.none → evaluate G H p = 0) ∧
    (∀ K : Hyper, evaluate G K p = evaluate G H p) := by
  refine ⟨?_, ?_, ?_, ?_⟩
  · intro w hw; unfold evaluate; simp [h, hw]
  · intro hw; unfold evaluate; simp [h, hw]
  · intro hw; unfold evaluate; simp [h, hw]
  · intro K; unfold evaluate; simp [h]

/-- Claim C8, witness: in the all-terminal game Gterm, the won position
evaluates to MATE_SCORE, the lost one to -MATE_SCORE, the drawn one to
0. -/
theorem evaluate_terminal_witness :
    Gterm.gameOver (0 : Nat) = true ∧ Gterm.gameOver (1 : Nat) = true ∧
      Gterm.gameOver (2 : Nat) = true ∧
      evaluate Gterm H0 (0 : Nat) = MATE_SCORE ∧
      evaluate Gterm H0 (1 : Nat) = -MATE_SCORE ∧
      evaluate Gterm H0 (2 : Nat) = 0 := by
  have h0 := (evaluate_terminal Gterm H0 (0 : Nat) rfl).1 PColor.white rfl
  have h1 := (evaluate_terminal Gterm H0 (1 : Nat) rfl).1 PColor.white rfl
  have h2 := (evaluate_terminal Gterm H0 (2 : Nat) rfl).2.1 rfl
  refine ⟨rfl, rfl, rfl, ?_, ?_, h2⟩
  · simpa using h0
  · rw [h1]; simp [Gterm]

/-- Claim C5 (amended): the in-use evaluation (engine.rs) is antisymmetric
under flipping the side to move provided neither position is game-over and
the board holds more than 10 pieces; with 10 or fewer pieces the endgame
king bonus - always added from the perspective of the mover - breaks the
antisymmetry. -/
theorem evaluate_antisymm (G : Game) (H : Hyper) (p q : G.Pos)
    (hb : G.board q = G.board p) (ht : G.turn q = (G.turn p).other)
    (hgp : G.gameOver p = false) (hgq : G.gameOver q = false)
    (hn : 10 < (G.board p).length) :
    evaluate G H q = -evaluate G H p := by
  unfold evaluate
  simp only [hgp, hgq, Bool.false_eq_true, if_false, hb]
  have hnot : ¬((G.board p).length ≤ 10) := by omega
  simp only [hnot, if_false]
  have hmap : ((G.board p).map fun e =>
      pieceTmpScore H (G.board p).length e.1 e.2 *
        (if e.2.color = G.turn q then 1 else -1)) =
      (G.board p).map fun e =>
        -(pieceTmpScore H (G.board p).length e.1 e.2 *
          (if e.2.color = G.turn p then 1 else -1)) := by
    apply List.map_congr_left
    intro e _
    by_cases hc : e.2.color = G.turn p
    · have hne : e.2.color ≠ G.turn q := by
        rw [ht, hc]
        exact pcolor_ne_other (G.turn p)
      rw [if_pos hc, if_neg hne]; ring
    · have heq : e.2.color = G.turn q := by rw [ht]; exact pcolor_other_cases _ _ hc
      rw [if_neg hc, if_pos heq]; ring
  rw [hmap, list_sum_map_negated]

/-- Claim C5, counterexample: on the mirror-symmetric four-piece rook
endgame Gsym (same board, the two turn variants both legal and not
game-over), both sides evaluate to +100 - the endgame king bonus - so
evaluate of the flip is not the negation. -/
theorem evaluate_antisymm_counterexample :
    Gsym.board (1 : Nat) = Gsym.board (0 : Nat) ∧
      Gsym.turn (1 : Nat) = (Gsym.turn (0 : Nat)).other ∧
      Gsym.gameOver (0 : Nat) = false ∧ Gsym.gameOver (1 : Nat) = false ∧
      Gsym.swapTurn (0 : Nat) = some (1 : Nat) ∧
      evaluate Gsym H0 (0 : Nat) = 100 ∧ evaluate Gsym H0 (1 : Nat) = 100 ∧
      evaluate Gsym H0 (1 : Nat) ≠ -evaluate Gsym H0 (0 : Nat) := by
  refine ⟨rfl, rfl, rfl, rfl, rfl, ?_, ?_, ?_⟩ <;> decide

/-- Claim C5, witness: on the twelve-piece board of Gsym2 the amended
antisymmetry holds. -/
theorem evaluate_antisymm_witness :
    Gsym2.board (1 : Nat) = Gsym2.board (0 : Nat) ∧
      Gsym2.turn (1 : Nat) = (Gsym2.turn (0 : Nat)).other ∧
      10 < (Gsym2.board (0 : Nat)).length ∧
      evaluate Gsym2 H0 (1 : Nat) = -evaluate Gsym2 H0 (0 : Nat) :=
  ⟨rfl, rfl, by decide,
    evaluate_antisymm Gsym2 H0 (0 : Nat) (1 : Nat) rfl rfl rfl rfl (by decide)⟩

/-- Claim C4 (amended): the quiescence capture list is the list of legal
captures stably sorted so that base(victim) - base(attacker) is
non-increasing along the list - the source key has no factor 10 on the
victim. -/
theorem sortedCaptures_order (G : Game) (p : G.Pos) :
    ((sortedCaptures G p).Pairwise fun a b =>
      (match b.capture with
        | some c => get_piece_base_score c
        | Option.none => 0) - get_piece_base_score b.role ≤
      (match a.capture with
        | some c => get_piece_base_score c
        | Option.none => 0) - get_piece_base_score a.role) ∧
    (sortedCaptures G p).Perm ((G.legalMoves p).filter fun m => m.capture.isSome) := by
  constructor
  · have h := sortByScore_sorted
      (fun m => -(match m.capture with
        | some c => get_piece_base_score c
        | Option.none => 0) + get_piece_base_score m.role)
      ((G.legalMoves p).filter fun m => m.capture.isSome)
    exact h.imp (fun hab => by omega)
  · exact sortByScore_perm _ _

/-- Claim C4, counterexample: in Gcap the code examines pawn-takes-knight
before queen-takes-rook, although the claimed key 10 x base(victim) -
base(attacker) is larger for queen-takes-rook (4100 against 3100), so the
capture with the larger claimed key is searched second. -/
theorem sortedCaptures_counterexample :
    sortedCaptures Gcap (0 : Nat) =
      [⟨1, Role.pawn, some Role.knight, Option.none, 9⟩,
       ⟨2, Role.queen, some Role.rook, Option.none, 18⟩] ∧
    10 * get_piece_base_score Role.knight - get_piece_base_score Role.pawn <
      10 * get_piece_base_score Role.rook - get_piece_base_score Role.queen := by
  constructor
  · simp [sortedCaptures, sortByScore, Gcap, List.mergeSort, get_piece_base_score]
  · decide

/-- The quiescence capture loop keeps its value strictly inside the
sentinels and touches neither the table nor the stop-flag fuel. -/
theorem qloopF_bounds (G : Game) (H : Hyper) (f : Nat) (p : G.Pos)
    (IH : ∀ (q : G.Pos) (a b : Int) (st : SState),
      NEGATIVE_INFINITY < (quiesceF G H f q a b st).1 ∧
      (quiesceF G H f q a b st).1 < POSITIVE_INFINITY ∧
      (quiesceF G H f q a b st).2.tt = st.tt ∧
      (quiesceF G H f q a b st).2.thinkFuel = st.thinkFuel) :
    ∀ (ms : List GMove) (alpha beta best : Int) (st : SState),
      NEGATIVE_INFINITY < best → best < POSITIVE_INFINITY →
      NEGATIVE_INFINITY < (qloopF G H f p ms alpha beta best st).1 ∧
      (qloopF G H f p ms alpha beta best st).1 < POSITIVE_INFINITY ∧
      (qloopF G H f p ms alpha beta best st).2.tt = st.tt ∧
      (qloopF G H f p ms alpha beta best st).2.thinkFuel = st.thinkFuel := by
  intro ms
  induction ms with
  | nil =>
    intro alpha beta best st h1 h2
    rw [qloopF]
    exact ⟨h1, h2, rfl, rfl⟩
  | cons m rest ih =>
    intro alpha beta best st h1 h2
    have hni : NEGATIVE_INFINITY = -POSITIVE_INFINITY := rfl
    rw [qloopF]
    simp only
    obtain ⟨ha, hb, hc, hd⟩ := IH (G.play p m) (-beta) (-alpha) st
    split
    · exact ⟨by omega, by omega, hc, hd⟩
    · have hr := ih (if alpha < -(quiesceF G H f (G.play p m) (-beta) (-alpha) st).1
          then -(quiesceF G H f (G.play p m) (-beta) (-alpha) st).1 else alpha)
        beta
        (if best < -(quiesceF G H f (G.play p m) (-beta) (-alpha) st).1
          then -(quiesceF G H f (G.play p m) (-beta) (-alpha) st).1 else best)
        (quiesceF G H f (G.play p m) (-beta) (-alpha) st).2
        (by split <;> omega) (by split <;> omega)
      refine ⟨hr.1, hr.2.1, ?_, ?_⟩
      · rw [hr.2.2.1, hc]
      · rw [hr.2.2.2, hd]

/-- Quiescence values are strictly inside the sentinels whenever the
static evaluation is; the table and the fuel are untouched. -/
theorem quiesceF_bounds (G : Game) (H : Hyper)
    (heval : ∀ q : G.Pos, NEGATIVE_INFINITY < evaluate G H q ∧
      evaluate G H q < POSITIVE_INFINITY) :
    ∀ (fuel : Nat) (p : G.Pos) (alpha beta : Int) (st : SState),
      NEGATIVE_INFINITY < (quiesceF G H fuel p alpha beta st).1 ∧
      (quiesceF G H fuel p alpha beta st).1 < POSITIVE_INFINITY ∧
      (quiesceF G H fuel p alpha beta st).2.tt = st.tt ∧
      (quiesceF G H fuel p alpha beta st).2.thinkFuel = st.thinkFuel := by
  intro fuel
  induction fuel with
  | zero =>
    intro p alpha beta st
    rw [quiesceF]
    simp only
    obtain ⟨h1, h2⟩ := heval p
    split
    · exact ⟨h1, h2, rfl, rfl⟩
    · exact ⟨h1, h2, rfl, rfl⟩
  | succ f ih =>
    intro p alpha beta st
    rw [quiesceF]
    simp only
    obtain ⟨h1, h2⟩ := heval p
    split
    · exact ⟨h1, h2, rfl, rfl⟩
    · exact qloopF_bounds G H f p (fun q a b st2 => ih q a b st2)
        (sortedCaptures G p) _ beta (evaluate G H p) _ h1 h2

/-- quiesce_bounds: the instance of quiesceF_bounds the search uses. -/
theorem quiesce_bounds (G : Game) (H : Hyper)
    (heval : ∀ q : G.Pos, NEGATIVE_INFINITY < evaluate G H q ∧
      evaluate G H q < POSITIVE_INFINITY)
    (p : G.Pos) (alpha beta : Int) (st : SState) :
    NEGATIVE_INFINITY < (quiesce G H p alpha beta st).1 ∧
    (quiesce G H p alpha beta st).1 < POSITIVE_INFINITY ∧
    (quiesce G H p alpha beta st).2.tt = st.tt ∧
    (quiesce G H p alpha beta st).2.thinkFuel = st.thinkFuel :=
  quiesceF_bounds G H heval (G.material p + 1) p alpha beta st

/-- The horizon branch of negamax keeps values inside the sentinels and
preserves the table invariant. -/
theorem negamaxHorizon_bounds (G : Game) (H : Hyper)
    (heval : ∀ q : G.Pos, NEGATIVE_INFINITY < evaluate G H q ∧
      evaluate G H q < POSITIVE_INFINITY)
    (depth : Nat) (p : G.Pos) (zh : Nat) (alpha beta : Int) (st : SState)
    (hinv : ttInv st.tt) :
    NEGATIVE_INFINITY < (negamaxHorizon G H depth p zh alpha beta st).1 ∧
    (negamaxHorizon G H depth p zh alpha beta st).1 < POSITIVE_INFINITY ∧
    ttInv (negamaxHorizon G H depth p zh alpha beta st).2.tt := by
  obtain ⟨h1, h2, h3, _⟩ := quiesce_bounds G H heval p alpha beta st
  unfold negamaxHorizon
  refine ⟨h1, h2, ?_⟩
  simp only
  rw [h3]
  exact ttInv_record st.tt zh depth _ _ _ hinv h1 h2

/-- The negamax move loop keeps its result strictly inside the sentinels
and preserves the table invariant, given the same property for the child
searches. -/
theorem negamaxLoop_bounds (G : Game) (H : Hyper) (dchild drec : Nat)
    (p : G.Pos) (zh : Nat)
    (IH : ∀ (q : G.Pos) (a b : Int) (st : SState),
      NEGATIVE_INFINITY ≤ a → a < b → b ≤ POSITIVE_INFINITY → ttInv st.tt →
      NEGATIVE_INFINITY < (negamax G H dchild q a b st).1 ∧
      (negamax G H dchild q a b st).1 < POSITIVE_INFINITY ∧
      ttInv (negamax G H dchild q a b st).2.tt) :
    ∀ (ms : List GMove) (i : Nat) (alpha beta : Int) (best : Option GMove)
      (tty : TranspositionHashType) (st : SState),
      NEGATIVE_INFINITY ≤ alpha → alpha < beta → beta ≤ POSITIVE_INFINITY →
      ttInv st.tt → (alpha = NEGATIVE_INFINITY → ms ≠ []) →
      NEGATIVE_INFINITY < (negamaxLoop G H dchild drec p zh ms i alpha beta best tty st).1 ∧
      (negamaxLoop G H dchild drec p zh ms i alpha beta best tty st).1 < POSITIVE_INFINITY ∧
      ttInv (negamaxLoop G H dchild drec p zh ms i alpha beta best tty st).2.1.tt := by
  intro ms
  induction ms with
  | nil =>
    intro i alpha beta best tty st ha hab hb hinv hne
    have hsalpha : NEGATIVE_INFINITY < alpha := by
      rcases lt_or_eq_of_le ha with h | h
      · exact h
      · exact absurd rfl (hne h.symm)
    rw [negamaxLoop]
    refine ⟨hsalpha, by omega, ?_⟩
    exact ttInv_record st.tt zh drec alpha tty best hinv hsalpha (by omega)
  | cons m rest ih =>
    intro i alpha beta best tty st ha hab hb hinv hne
    have hni : NEGATIVE_INFINITY = -POSITIVE_INFINITY := rfl
    obtain ⟨hc1, hc2, hc3⟩ := IH (G.play p m) (-beta) (-alpha) st
      (by omega) (by omega) (by omega) hinv
    rw [negamaxLoop]
    simp only
    split
    · next hcut =>
      refine ⟨by omega, by omega, ?_⟩
      exact ttInv_record _ zh drec beta TranspositionHashType.beta (some m) hc3
        (by omega) (by omega)
    · next hcut =>
      split
      · next himp =>
        exact ih (i + 1) _ beta (some m) TranspositionHashType.exact _
          (by omega) (by omega) hb hc3 (by intro hcon; omega)
      · next himp =>
        have halpha : NEGATIVE_INFINITY < alpha := by omega
        exact ih (i + 1) alpha beta best tty _
          (by omega) hab hb hc3 (by intro hcon; omega)

/-- The move phase of negamax, on a position with legal moves, keeps its
result strictly inside the sentinels and preserves the table invariant. -/
theorem negamaxMoves_bounds (G : Game) (H : Hyper) (dchild drec : Nat)
    (p : G.Pos) (zh : Nat) (bc : Option GMove) (alpha beta : Int) (st : SState)
    (IH : ∀ (q : G.Pos) (a b : Int) (st : SState),
      NEGATIVE_INFINITY ≤ a → a < b → b ≤ POSITIVE_INFINITY → ttInv st.tt →
      NEGATIVE_INFINITY < (negamax G H dchild q a b st).1 ∧
      (negamax G H dchild q a b st).1 < POSITIVE_INFINITY ∧
      ttInv (negamax G H dchild q a b st).2.tt)
    (hne : G.legalMoves p ≠ [])
    (ha : NEGATIVE_INFINITY ≤ alpha) (hab : alpha < beta)
    (hb : beta ≤ POSITIVE_INFINITY) (hinv : ttInv st.tt) :
    NEGATIVE_INFINITY < (negamaxMoves G H dchild drec p zh bc alpha beta st).1 ∧
    (negamaxMoves G H dchild drec p zh bc alpha beta st).1 < POSITIVE_INFINITY ∧
    ttInv (negamaxMoves G H dchild drec p zh bc alpha beta st).2.tt := by
  rw [negamaxMoves]
  simp only
  obtain ⟨h1, h2, h3⟩ := negamaxLoop_bounds G H dchild drec p zh IH
    (sortByScore (fun m => quick_score_move_for_sort G m p bc) (G.legalMoves p))
    0 alpha beta Option.none TranspositionHashType.alpha st ha hab hb hinv
    (fun _ => sortByScore_ne_nil _ _ hne)
  exact ⟨h1, h2, h3⟩

/-- negamax never returns a sentinel: on any window strictly inside
[-INF, INF] with a table satisfying the invariant, the returned value is
strictly between the sentinels and the invariant is preserved.  Requires
the static evaluation to stay inside the sentinels and non-terminal
positions to have legal moves. -/
theorem negamax_bounds (G : Game) (H : Hyper)
    (heval : ∀ q : G.Pos, NEGATIVE_INFINITY < evaluate G H q ∧
      evaluate G H q < POSITIVE_INFINITY)
    (hmoves : ∀ q : G.Pos, G.gameOver q = false → G.legalMoves q ≠ []) :
    ∀ (depth : Nat) (p : G.Pos) (alpha beta : Int) (st : SState),
      NEGATIVE_INFINITY ≤ alpha → alpha < beta → beta ≤ POSITIVE_INFINITY →
      ttInv st.tt →
      NEGATIVE_INFINITY < (negamax G H depth p alpha beta st).1 ∧
      (negamax G H depth p alpha beta st).1 < POSITIVE_INFINITY ∧
      ttInv (negamax G H depth p alpha beta st).2.tt := by
  intro depth
  induction depth using Nat.strong_induction_on with
  | _ depth IH =>
    intro p alpha beta st ha hab hb hinv
    have hni : NEGATIVE_INFINITY = -POSITIVE_INFINITY := rfl
    have hinv1 : ttInv (loadThinking { st with nodes := st.nodes + 1 }).2.tt := by
      rw [loadThinking_tt]
      exact hinv
    rw [negamax]
    cases hp : probe_hash st.tt (G.zobrist p) depth alpha beta
    case value v =>
      simp only
      obtain ⟨info, hl, hcase⟩ := probe_value_cases st.tt (G.zobrist p) depth alpha beta v hp
      obtain ⟨hv1, hv2⟩ := hinv (G.zobrist p) info hl
      rcases hcase with h | ⟨h, hle⟩ | ⟨h, hle⟩ <;> subst h
      · exact ⟨hv1, hv2, hinv⟩
      · exact ⟨by omega, by omega, hinv⟩
      · exact ⟨by omega, by omega, hinv⟩
    all_goals
      simp only [hp]
      split
      · next hterm =>
        exact negamaxHorizon_bounds G H heval depth p (G.zobrist p) alpha beta
          { st with nodes := st.nodes + 1 } hinv
      · next hterm =>
        have hgo : G.gameOver p = false := by
          by_cases hgo2 : G.gameOver p = true
          · exact absurd (Or.inr hgo2) hterm
          · simpa using hgo2
        have hne := hmoves p hgo
        split
        · next htk =>
          exact negamaxHorizon_bounds G H heval depth p (G.zobrist p) alpha beta
            (loadThinking { st with nodes := st.nodes + 1 }).2 hinv1
        · next htk =>
          split
          · next h3 =>
            cases hsw : G.swapTurn p with
            | some q =>
              simp only [hsw]
              obtain ⟨hn1, hn2, hn3⟩ := IH (depth - 3) (by omega) q (-beta) (-beta + 1)
                (loadThinking { st with nodes := st.nodes + 1 }).2
                (by omega) (by omega) (by omega) hinv1
              split
              · next hcut =>
                exact ⟨by omega, by omega, hn3⟩
              · next hcut =>
                exact negamaxMoves_bounds G H (depth - 1) depth p (G.zobrist p) _
                  alpha beta _ (fun q2 a2 b2 st2 => IH (depth - 1) (by omega) q2 a2 b2 st2)
                  hne ha hab hb hn3
            | none =>
              simp only [hsw]
              exact negamaxMoves_bounds G H (depth - 1) depth p (G.zobrist p) _
                alpha beta _ (fun q2 a2 b2 st2 => IH (depth - 1) (by omega) q2 a2 b2 st2)
                hne ha hab hb hinv1
          · next h3 =>
            exact negamaxMoves_bounds G H (depth - 1) depth p (G.zobrist p) _
              alpha beta _ (fun q2 a2 b2 st2 => IH (depth - 1) (by omega) q2 a2 b2 st2)
              hne ha hab hb hinv1

/-- The root loop of next_move: on an empty move list it returns the
incoming best move, and on a non-empty list it returns some legal move -
the first root move always improves the initial alpha because child
searches never return a sentinel. -/
theorem rootLoop_finds (G : Game) (H : Hyper)
    (heval : ∀ q : G.Pos, NEGATIVE_INFINITY < evaluate G H q ∧
      evaluate G H q < POSITIVE_INFINITY)
    (hmoves : ∀ q : G.Pos, G.gameOver q = false → G.legalMoves q ≠ [])
    (td : Nat) (p : G.Pos) :
    ∀ (ms : List GMove) (alpha : Int) (best : Option GMove) (st : SState)
      (ex : List GMove),
      ttInv st.tt → NEGATIVE_INFINITY ≤ alpha → alpha < POSITIVE_INFINITY →
      (∀ m ∈ ms, m ∈ G.legalMoves p) →
      (match best with
       | some m0 => m0 ∈ G.legalMoves p
       | Option.none => alpha = NEGATIVE_INFINITY) →
      (ms = [] →
        (rootLoop G H td p ms POSITIVE_INFINITY alpha best st ex).best = best) ∧
      (ms ≠ [] → ∃ m,
        (rootLoop G H td p ms POSITIVE_INFINITY alpha best st ex).best = some m ∧
        m ∈ G.legalMoves p) := by
  intro ms
  induction ms with
  | nil =>
    intro alpha best st ex hinv ha hub hmem hbest
    constructor
    · intro _
      rw [rootLoop]
    · intro hcon
      exact absurd rfl hcon
  | cons m rest ih =>
    intro alpha best st ex hinv ha hub hmem hbest
    have hni : NEGATIVE_INFINITY = -POSITIVE_INFINITY := rfl
    refine ⟨(fun hcon => nomatch hcon), fun _ => ?_⟩
    obtain ⟨hb1, hb2, hb3⟩ := negamax_bounds G H heval hmoves (td - 1) (G.play p m)
      (-POSITIVE_INFINITY) (-alpha) st (by omega) (by omega) (by omega) hinv
    rw [rootLoop]
    set score := -(negamax G H (td - 1) (G.play p m) (-POSITIVE_INFINITY) (-alpha) st).1 with hscore
    have hsome : ∃ mb, (if alpha < score then some m else best) = some mb ∧
        mb ∈ G.legalMoves p := by
      by_cases himp : alpha < score
      · exact ⟨m, by rw [if_pos himp], hmem m (List.mem_cons_self m rest)⟩
      · cases hb : best with
        | some m0 =>
          have hb4 : m0 ∈ G.legalMoves p := by rw [hb] at hbest; exact hbest
          exact ⟨m0, by rw [if_neg himp], hb4⟩
        | none =>
          have hb4 : alpha = NEGATIVE_INFINITY := by rw [hb] at hbest; exact hbest
          omega
    obtain ⟨mb, hmb, hmbl⟩ := hsome
    split
    · next htk =>
      exact ⟨mb, hmb, hmbl⟩
    · next htk =>
      have hinv2 : ttInv ((loadThinking
          (negamax G H (td - 1) (G.play p m) (-POSITIVE_INFINITY) (-alpha) st).2).2).tt := by
        rw [loadThinking_tt]
        exact hb3
      have halpha1 : NEGATIVE_INFINITY ≤ (if alpha < score then score else alpha) ∧
          (if alpha < score then score else alpha) < POSITIVE_INFINITY := by
        constructor <;> (split <;> omega)
      have hmem2 : ∀ m2 ∈ rest, m2 ∈ G.legalMoves p :=
        fun m2 hm2 => hmem m2 (List.mem_cons_of_mem m hm2)
      have hbestmem : match (if alpha < score then some m else best) with
          | some m0 => m0 ∈ G.legalMoves p
          | Option.none => (if alpha < score then score else alpha) = NEGATIVE_INFINITY := by
        rw [hmb]
        simp only
        exact hmbl
      have hrec := ih (if alpha < score then score else alpha)
        (if alpha < score then some m else best)
        ((loadThinking
          (negamax G H (td - 1) (G.play p m) (-POSITIVE_INFINITY) (-alpha) st).2).2)
        (ex ++ [m]) hinv2 halpha1.1 halpha1.2 hmem2 hbestmem
      by_cases hre : rest = []
      · subst hre
        rw [hrec.1 rfl, hmb]
        exact ⟨mb, rfl, hmbl⟩
      · exact hrec.2 hre

/-- Claim C9: on a position with no legal moves next_move produces no
move (modelling the expect panic with the no-legal-moves message), and on
a position with at least one legal move it returns a move drawn from the
legal-move list. -/
theorem next_move_result (G : Game) (H : Hyper)
    (heval : ∀ q : G.Pos, NEGATIVE_INFINITY < evaluate G H q ∧
      evaluate G H q < POSITIVE_INFINITY)
    (hmoves : ∀ q : G.Pos, G.gameOver q = false → G.legalMoves q ≠ [])
    (td : Nat) (lastBest : Option GMove) (p : G.Pos) (st : SState)
    (hinv : ttInv st.tt) :
    (G.legalMoves p = [] →
      (next_move G H td lastBest p st).best = Option.none) ∧
    (G.legalMoves p ≠ [] → ∃ m,
      (next_move G H td lastBest p st).best = some m ∧ m ∈ G.legalMoves p) := by
  constructor
  · intro h
    unfold next_move
    have hs : sortByScore (fun m => quick_score_move_for_sort G m p lastBest)
        (G.legalMoves p) = [] := by
      rw [h]
      exact List.Perm.eq_nil (sortByScore_perm _ [])
    rw [hs, rootLoop]
  · intro h
    unfold next_move
    have hres := rootLoop_finds G H heval hmoves td p
      (sortByScore (fun m => quick_score_move_for_sort G m p lastBest)
        (G.legalMoves p))
      NEGATIVE_INFINITY Option.none st [] hinv (le_refl _) (by decide)
      (fun m hm => (sortByScore_mem _ _ m).1 hm) (by simp only)
    exact hres.2 (sortByScore_ne_nil _ _ h)

/-- Claim C9, witness: next_move on the terminal position 5 of Gw9 (no
legal moves) yields none, and on the root 0 (one legal move) yields a
move from the legal-move list. -/
theorem next_move_result_witness :
    (next_move Gw9 H0 1 Option.none (5 : Nat) ⟨[], 0, 9⟩).best = Option.none ∧
    (∃ m, (next_move Gw9 H0 1 Option.none (0 : Nat) ⟨[], 0, 9⟩).best = some m ∧
      m ∈ Gw9.legalMoves (0 : Nat)) := by
  have heval : ∀ q : Gw9.Pos, NEGATIVE_INFINITY < evaluate Gw9 H0 q ∧
      evaluate Gw9 H0 q < POSITIVE_INFINITY := by
    intro q
    by_cases hq : q = (0 : Nat)
    · subst hq
      decide
    · have hval : evaluate Gw9 H0 q = 0 := by
        unfold evaluate
        simp [Gw9, hq]
      rw [hval]
      decide
  have hmoves : ∀ q : Gw9.Pos, Gw9.gameOver q = false → Gw9.legalMoves q ≠ [] := by
    intro q hq
    have hq0 : q = (0 : Nat) := by
      by_cases h : q = (0 : Nat)
      · exact h
      · exact absurd hq (by simp [Gw9, h])
    subst hq0
    simp [Gw9]
  have h1 := next_move_result Gw9 H0 heval hmoves 1 Option.none (5 : Nat)
    ⟨[], 0, 9⟩ ttInv_nil
  have h2 := next_move_result Gw9 H0 heval hmoves 1 Option.none (0 : Nat)
    ⟨[], 0, 9⟩ ttInv_nil
  exact ⟨h1.1 (by simp [Gw9]), h2.2 (by simp [Gw9])⟩

/-- Claim C7: at a non-horizon negamax node (probe gave no cutoff value,
depth at least 3, the position neither finished nor in check, the stop
flag still set, the rules provider accepting the turn pass) whose
null-move search at depth-3 on the window (-beta, -beta+1) scores at
least beta, negamax returns beta at once, and the only table writes are
those of the null-move search itself - nothing is recorded for this
node. -/
theorem negamax_null_move (G : Game) (H : Hyper) (depth : Nat) (p q : G.Pos)
    (alpha beta : Int) (st : SState)
    (hpv : ∀ v, probe_hash st.tt (G.zobrist p) depth alpha beta ≠ HashProbeOption.value v)
    (hgo : G.gameOver p = false)
    (hfuel : st.thinkFuel ≠ 0)
    (h3 : 3 ≤ depth) (hchk : G.inCheck p = false)
    (hswap : G.swapTurn p = some q)
    (hnull : beta ≤ -(negamax G H (depth - 3) q (-beta) (-beta + 1)
        { tt := st.tt, nodes := st.nodes + 1, thinkFuel := st.thinkFuel - 1 }).1) :
    negamax G H depth p alpha beta st =
      (beta, (negamax G H (depth - 3) q (-beta) (-beta + 1)
        { tt := st.tt, nodes := st.nodes + 1, thinkFuel := st.thinkFuel - 1 }).2) := by
  rw [negamax]
  cases hp : probe_hash st.tt (G.zobrist p) depth alpha beta
  case value v => exact absurd hp (hpv v)
  all_goals
    simp only [hp]
    rw [dif_neg (by simp [hgo]; omega)]
    rw [show loadThinking { st with nodes := st.nodes + 1 } =
      (true, { tt := st.tt, nodes := st.nodes + 1, thinkFuel := st.thinkFuel - 1 }) from by
        simp [loadThinking, hfuel]]
    simp only [Bool.true_eq_false, if_neg (by simp : ¬(true = false))]
    rw [dif_pos ⟨h3, hchk⟩]
    simp only [hswap]
    rw [if_pos hnull]
    simp

/-- Claim C7, witness: in Gnull at depth 3 with window (-100, -50) the
null-move search returns the drawn value 0, its negation 0 is at least
beta = -50, and negamax returns beta with exactly the null-search state. -/
theorem negamax_null_move_witness :
    negamax Gnull H0 3 (0 : Nat) (-100) (-50) ⟨[], 0, 9⟩ =
      (-50, (negamax Gnull H0 0 (1 : Nat) 50 51 ⟨[], 1, 8⟩).2) := by
  have hnull : (-50 : Int) ≤ -(negamax Gnull H0 (3 - 3) (1 : Nat) (-(-50)) (-(-50) + 1)
      { tt := ([] : List (Nat × TranspositionInformation)), nodes := 0 + 1, thinkFuel := 9 - 1 }).1 := by
    simp [negamax, probe_hash, ttLookup, negamaxHorizon, quiesce, quiesceF, qloopF,
      evaluate, Gnull, sortedCaptures, sortByScore, List.mergeSort, recordHash]
  have h := negamax_null_move Gnull H0 3 (0 : Nat) (1 : Nat) (-100) (-50) ⟨[], 0, 9⟩
    (by intro v h; simp [probe_hash, ttLookup] at h) rfl (by decide) (by decide) rfl rfl hnull
  simpa using h

/-- Claim C1 (amended): the negamax move loop searches every examined
move - whatever its loop index, the depth, and whether it is a capture or
gives check - at the single child depth dchild (the source passes
depth - 1); no move is first searched at a reduced depth. -/
theorem negamaxLoop_uniform_depth (G : Game) (H : Hyper) (dchild drec : Nat)
    (p : G.Pos) (zh : Nat) :
    ∀ (ms : List GMove) (i : Nat) (alpha beta : Int) (best : Option GMove)
      (tty : TranspositionHashType) (st : SState),
      ∀ e ∈ (negamaxLoop G H dchild drec p zh ms i alpha beta best tty st).2.2,
        e.2 = dchild := by
  intro ms
  induction ms with
  | nil =>
    intro i alpha beta best tty st e he
    rw [negamaxLoop] at he
    simp at he
  | cons m rest ih =>
    intro i alpha beta best tty st e he
    rw [negamaxLoop] at he
    simp only at he
    split at he
    · simp at he
      rw [he]
    · split at he
      · simp only [List.mem_cons] at he
        rcases he with he | he
        · rw [he]
        · exact ih _ _ _ _ _ _ e he
      · simp only [List.mem_cons] at he
        rcases he with he | he
        · rw [he]
        · exact ih _ _ _ _ _ _ e he

/-- Claim C1, counterexample: in Gfive at depth 3 the loop examines five
quiet moves whose children are not in check; the move with loop index
4 meets every late-move-reduction condition of the claim, yet its only
search is at depth 2 = depth - 1; no search at the claimed reduced depth
1 = depth - 2 occurs.  The last conjunct checks the state fed to the
loop is exactly what the negamax run produces after its null-move
search. -/
theorem negamax_no_lmr_counterexample :
    (sortByScore (fun m => quick_score_move_for_sort Gfive m (0 : Nat) Option.none)
        (Gfive.legalMoves (0 : Nat)) =
      [⟨1, Role.pawn, Option.none, Option.none, 17⟩,
       ⟨2, Role.pawn, Option.none, Option.none, 18⟩,
       ⟨3, Role.pawn, Option.none, Option.none, 19⟩,
       ⟨4, Role.pawn, Option.none, Option.none, 20⟩,
       ⟨5, Role.pawn, Option.none, Option.none, 21⟩]) ∧
    (negamaxLoop Gfive H0 2 3 (0 : Nat) 0
        [⟨1, Role.pawn, Option.none, Option.none, 17⟩,
         ⟨2, Role.pawn, Option.none, Option.none, 18⟩,
         ⟨3, Role.pawn, Option.none, Option.none, 19⟩,
         ⟨4, Role.pawn, Option.none, Option.none, 20⟩,
         ⟨5, Role.pawn, Option.none, Option.none, 21⟩] 0 (-1000) 1000
        Option.none TranspositionHashType.alpha
        ⟨[(6, ⟨0, 0, Option.none, TranspositionHashType.exact⟩)], 3, 98⟩).2.2 =
      [(0, 2), (1, 2), (2, 2), (3, 2), (4, 2)] ∧
    (⟨5, Role.pawn, Option.none, Option.none, 21⟩ : GMove).capture = Option.none ∧
    Gfive.inCheck (Gfive.play (0 : Nat) ⟨5, Role.pawn, Option.none, Option.none, 21⟩) = false ∧
    ((4, 3 - 2) ∉ (negamaxLoop Gfive H0 2 3 (0 : Nat) 0
        [⟨1, Role.pawn, Option.none, Option.none, 17⟩,
         ⟨2, Role.pawn, Option.none, Option.none, 18⟩,
         ⟨3, Role.pawn, Option.none, Option.none, 19⟩,
         ⟨4, Role.pawn, Option.none, Option.none, 20⟩,
         ⟨5, Role.pawn, Option.none, Option.none, 21⟩] 0 (-1000) 1000
        Option.none TranspositionHashType.alpha
        ⟨[(6, ⟨0, 0, Option.none, TranspositionHashType.exact⟩)], 3, 98⟩).2.2) ∧
    negamax Gfive H0 0 (6 : Nat) (-1000) (-999) ⟨[], 1, 98⟩ =
      (0, ⟨[(6, ⟨0, 0, Option.none, TranspositionHashType.exact⟩)], 3, 98⟩) := by
  refine ⟨?_, ?_, rfl, by simp [Gfive], ?_, ?_⟩
  · simp [sortByScore, Gfive, List.mergeSort, quick_score_move_for_sort, get_piece_base_score]
  · simp [negamaxLoop, negamax, negamaxMoves, negamaxHorizon, quiesce, quiesceF, qloopF,
      evaluate, probe_hash, ttLookup, recordHash, loadThinking, sortByScore, List.mergeSort,
      sortedCaptures, quick_score_move_for_sort, Gfive, H0, get_piece_base_score]
  · simp [negamaxLoop, negamax, negamaxMoves, negamaxHorizon, quiesce, quiesceF, qloopF,
      evaluate, probe_hash, ttLookup, recordHash, loadThinking, sortByScore, List.mergeSort,
      sortedCaptures, quick_score_move_for_sort, Gfive, H0, get_piece_base_score]
  · simp [negamax, negamaxHorizon, quiesce, quiesceF, qloopF,
      evaluate, probe_hash, ttLookup, recordHash, loadThinking,
      sortedCaptures, sortByScore, List.mergeSort, Gfive, H0]

/-- Claim C2 (amended): the driver replaces its best move with every root
iteration result unconditionally.  If the stop flag still read true when
the loop started an iteration, that iteration returned move m, and the
next flag load reads false, then the driver emits m - the possibly
answer of the partial iteration - rather than that of the previous completed depth
move. -/
theorem driverLoop_keeps_unfinished (G : Game) (H : Hyper) (p : G.Pos)
    (gas : Nat) (st : SState) (depth : Nat) (best m : GMove)
    (hg : 1 ≤ gas)
    (h1 : (loadThinking st).1 = true)
    (h2 : (next_move G H depth (some best) p (loadThinking st).2).best = some m)
    (h3 : (loadThinking
      (next_move G H depth (some best) p (loadThinking st).2).st).1 = false) :
    (driverLoop G H p gas st depth best).1 = some m := by
  cases gas with
  | zero => omega
  | succ g =>
    rw [driverLoop.eq_def]
    simp only [h1]
    rw [if_neg (by simp)]
    simp only [h2]
    cases g with
    | zero => rfl
    | succ g2 =>
      rw [driverLoop.eq_def]
      simp [h3]
/-- Claim C1, witness: in the Gfive run the loop entry for the first move
appears in the call trace, and its recorded search depth equals the child
depth 2. -/
theorem negamaxLoop_uniform_depth_witness :
    ((0, 2) : Nat × Nat) ∈ (negamaxLoop Gfive H0 2 3 (0 : Nat) 0
        [⟨1, Role.pawn, Option.none, Option.none, 17⟩,
         ⟨2, Role.pawn, Option.none, Option.none, 18⟩,
         ⟨3, Role.pawn, Option.none, Option.none, 19⟩,
         ⟨4, Role.pawn, Option.none, Option.none, 20⟩,
         ⟨5, Role.pawn, Option.none, Option.none, 21⟩] 0 (-1000) 1000
        Option.none TranspositionHashType.alpha
        ⟨[(6, ⟨0, 0, Option.none, TranspositionHashType.exact⟩)], 3, 98⟩).2.2 ∧
    ((0, 2) : Nat × Nat).2 = 2 := by
  have hmem : ((0, 2) : Nat × Nat) ∈ (negamaxLoop Gfive H0 2 3 (0 : Nat) 0
      [⟨1, Role.pawn, Option.none, Option.none, 17⟩,
       ⟨2, Role.pawn, Option.none, Option.none, 18⟩,
       ⟨3, Role.pawn, Option.none, Option.none, 19⟩,
       ⟨4, Role.pawn, Option.none, Option.none, 20⟩,
       ⟨5, Role.pawn, Option.none, Option.none, 21⟩] 0 (-1000) 1000
      Option.none TranspositionHashType.alpha
      ⟨[(6, ⟨0, 0, Option.none, TranspositionHashType.exact⟩)], 3, 98⟩).2.2 := by
    simp [negamaxLoop, negamax, negamaxMoves, negamaxHorizon, quiesce, quiesceF, qloopF,
      evaluate, probe_hash, ttLookup, recordHash, loadThinking, sortByScore, List.mergeSort,
      sortedCaptures, quick_score_move_for_sort, Gfive, H0, get_piece_base_score]
  exact ⟨hmem, negamaxLoop_uniform_depth Gfive H0 2 3 (0 : Nat) 0
    [⟨1, Role.pawn, Option.none, Option.none, 17⟩,
     ⟨2, Role.pawn, Option.none, Option.none, 18⟩,
     ⟨3, Role.pawn, Option.none, Option.none, 19⟩,
     ⟨4, Role.pawn, Option.none, Option.none, 20⟩,
     ⟨5, Role.pawn, Option.none, Option.none, 21⟩] 0 (-1000) 1000
    Option.none TranspositionHashType.alpha
    ⟨[(6, ⟨0, 0, Option.none, TranspositionHashType.exact⟩)], 3, 98⟩
    ((0, 2) : Nat × Nat) hmem⟩

/-- Claim C2, counterexample: with seven flag loads available, the Gdrv
driver run completes depth 1 (best move a, the id-1 move), enters depth 2
with the flag still true, and the flag clears during the depth-2 root
search: only two of its three scheduled root moves are examined.  The
partially searched iteration answers move b (the id-2 move), and the
driver emits b, not the completed depth-1 answer a. -/
theorem driver_unfinished_iteration_counterexample :
    ((driver Gdrv H0 (0 : Nat) ⟨[], 0, 7⟩).1 =
      some ⟨2, Role.pawn, Option.none, Option.none, 18⟩) ∧
    (next_move Gdrv H0 1 Option.none (0 : Nat) ⟨[], 0, 7⟩ =
      ⟨some ⟨1, Role.pawn, Option.none, Option.none, 17⟩, 100,
        ⟨[(3, ⟨0, 0, Option.none, TranspositionHashType.exact⟩),
          (2, ⟨0, 0, Option.none, TranspositionHashType.exact⟩),
          (1, ⟨0, -100, Option.none, TranspositionHashType.exact⟩)], 6, 4⟩,
        [⟨1, Role.pawn, Option.none, Option.none, 17⟩,
         ⟨2, Role.pawn, Option.none, Option.none, 18⟩,
         ⟨3, Role.pawn, Option.none, Option.none, 19⟩]⟩) ∧
    ((⟨1, Role.pawn, Option.none, Option.none, 17⟩ : GMove) ≠
      ⟨2, Role.pawn, Option.none, Option.none, 18⟩) ∧
    (loadThinking ⟨[(3, ⟨0, 0, Option.none, TranspositionHashType.exact⟩),
        (2, ⟨0, 0, Option.none, TranspositionHashType.exact⟩),
        (1, ⟨0, -100, Option.none, TranspositionHashType.exact⟩)], 6, 4⟩ =
      (true, ⟨[(3, ⟨0, 0, Option.none, TranspositionHashType.exact⟩),
        (2, ⟨0, 0, Option.none, TranspositionHashType.exact⟩),
        (1, ⟨0, -100, Option.none, TranspositionHashType.exact⟩)], 6, 3⟩)) ∧
    ((next_move Gdrv H0 2
        (some ⟨1, Role.pawn, Option.none, Option.none, 17⟩) (0 : Nat)
        ⟨[(3, ⟨0, 0, Option.none, TranspositionHashType.exact⟩),
          (2, ⟨0, 0, Option.none, TranspositionHashType.exact⟩),
          (1, ⟨0, -100, Option.none, TranspositionHashType.exact⟩)], 6, 3⟩).best =
      some ⟨2, Role.pawn, Option.none, Option.none, 18⟩) ∧
    ((next_move Gdrv H0 2
        (some ⟨1, Role.pawn, Option.none, Option.none, 17⟩) (0 : Nat)
        ⟨[(3, ⟨0, 0, Option.none, TranspositionHashType.exact⟩),
          (2, ⟨0, 0, Option.none, TranspositionHashType.exact⟩),
          (1, ⟨0, -100, Option.none, TranspositionHashType.exact⟩)], 6, 3⟩).examined =
      [⟨1, Role.pawn, Option.none, Option.none, 17⟩,
       ⟨2, Role.pawn, Option.none, Option.none, 18⟩]) ∧
    (sortByScore (fun m => quick_score_move_for_sort Gdrv m (0 : Nat)
        (some ⟨1, Role.pawn, Option.none, Option.none, 17⟩))
        (Gdrv.legalMoves (0 : Nat)) =
      [⟨1, Role.pawn, Option.none, Option.none, 17⟩,
       ⟨2, Role.pawn, Option.none, Option.none, 18⟩,
       ⟨3, Role.pawn, Option.none, Option.none, 19⟩]) ∧
    ((⟨3, Role.pawn, Option.none, Option.none, 19⟩ : GMove) ∉
      [(⟨1, Role.pawn, Option.none, Option.none, 17⟩ : GMove),
       ⟨2, Role.pawn, Option.none, Option.none, 18⟩]) := by
  refine ⟨?_, ?_, by decide, by decide, ?_, ?_, ?_, by decide⟩ <;>
    simp [driver, driverLoop, next_move, rootLoop, negamax, negamaxMoves, negamaxLoop,
      negamaxHorizon, quiesce, quiesceF, qloopF, evaluate, end_game_king_bonuses,
      pieceTmpScore, probe_hash, ttLookup, recordHash, loadThinking, sortByScore,
      List.mergeSort, sortedCaptures, quick_score_move_for_sort, Gdrv, H0,
      get_piece_base_score, flipVertical, fileOf, rankOf, intAbs,
      POSITIVE_INFINITY, NEGATIVE_INFINITY]

/-- Claim C2, witness: applying the amended statement to the Gdrv
scenario: from the post-depth-1 state the loop, with the flag initially
true and clearing during the depth-2 search, emits the partial depth-2
answer b. -/
theorem driverLoop_keeps_unfinished_witness :
    (driverLoop Gdrv H0 (0 : Nat) 5
      ⟨[(3, ⟨0, 0, Option.none, TranspositionHashType.exact⟩),
        (2, ⟨0, 0, Option.none, TranspositionHashType.exact⟩),
        (1, ⟨0, -100, Option.none, TranspositionHashType.exact⟩)], 6, 4⟩ 2
      ⟨1, Role.pawn, Option.none, Option.none, 17⟩).1 =
    some ⟨2, Role.pawn, Option.none, Option.none, 18⟩ := by
  apply driverLoop_keeps_unfinished Gdrv H0 (0 : Nat) 5 _ 2
    ⟨1, Role.pawn, Option.none, Option.none, 17⟩
    ⟨2, Role.pawn, Option.none, Option.none, 18⟩ (by omega) (by decide)
  · simp [next_move, rootLoop, negamax, negamaxMoves, negamaxLoop, negamaxHorizon,
      quiesce, quiesceF, qloopF, evaluate, end_game_king_bonuses, pieceTmpScore,
      probe_hash, ttLookup, recordHash, loadThinking, sortByScore, List.mergeSort,
      sortedCaptures, quick_score_move_for_sort, Gdrv, H0, get_piece_base_score,
      flipVertical, fileOf, rankOf, intAbs, POSITIVE_INFINITY, NEGATIVE_INFINITY]
  · simp [next_move, rootLoop, negamax, negamaxMoves, negamaxLoop, negamaxHorizon,
      quiesce, quiesceF, qloopF, evaluate, end_game_king_bonuses, pieceTmpScore,
      probe_hash, ttLookup, recordHash, loadThinking, sortByScore, List.mergeSort,
      sortedCaptures, quick_score_move_for_sort, Gdrv, H0, get_piece_base_score,
      flipVertical, fileOf, rankOf, intAbs, POSITIVE_INFINITY, NEGATIVE_INFINITY]

end ChessBot
